import Mathlib

set_option autoImplicit false
set_option maxHeartbeats 1000000
set_option synthInstance.maxHeartbeats 400000

/-!
A shallow embedding of the directory-snapshot core of the granite library
(granite/environment.py and granite/utils.py), together with a model of the
Python posixpath functions it calls and of the MD5 digest used by
Snapshot._hash_file.  Python strings are modelled as lists of characters,
Python byte strings as lists of naturals (each entry below 256), and raised
exceptions through the Except monad with an explicit error kind.
-/

/-- Python strings are modelled as lists of characters. -/
abbrev Str := List Char

/-- Shorthand turning a Lean string literal into a `Str`. -/
def pstr (s : String) : Str := s.toList

/-- The exception kinds raised by the snapshot core: ValueError (raised by
Snapshot._massage_path on a non-string argument), TypeError (raised by
Snapshot.__sub__ on a non-snapshot argument) and KeyError (raised by the
dict lookup in Snapshot.__getitem__ on an untracked key). -/
inductive PyError where
  | valueError : PyError
  | typeError : PyError
  | keyError : Str → PyError
deriving DecidableEq, Repr

/-! ## The posixpath model

granite's path normalization (utils.path_as_key and
Snapshot._massage_path) is built from os.path functions.  They are
modelled here for POSIX semantics, with the process working directory
passed explicitly as a `cwd` argument wherever Python consults
os.getcwd(). -/

/-- Modelled from Python's posixpath.isabs: a POSIX path is absolute iff
it starts with a slash. -/
def isabs (p : Str) : Bool :=
  match p with
  | '/' :: _ => true
  | _ => false

/-- Modelled from Python's posixpath.join restricted to two arguments: if
the second path is absolute it wins; otherwise it is appended, inserting a
slash unless the first path is empty or already ends in one. -/
def join (a b : Str) : Str :=
  if isabs b then b
  else if a = [] ∨ a.getLast? = some '/' then a ++ b
  else a ++ '/' :: b

/-- The number of initial slashes retained by posixpath.normpath: 1 for a
path starting with one slash (or three or more), 2 for a path starting
with exactly two slashes, 0 for a relative path. -/
def initSlashes (p : Str) : Nat :=
  match p with
  | '/' :: '/' :: '/' :: _ => 1
  | '/' :: '/' :: _ => 2
  | '/' :: _ => 1
  | _ => 0

/-- Python's str.split on a single separator character. -/
def splitSep (sep : Char) : Str → List Str
  | [] => [[]]
  | c :: cs =>
    if c = sep then [] :: splitSep sep cs
    else
      match splitSep sep cs with
      | [] => [[c]]
      | h :: t => (c :: h) :: t

/-- The path component consisting of two dots. -/
def dotdot : Str := ['.', '.']

/-- Python's str.join with a slash separator, over a list of
components. -/
def joinSlash : List Str → Str
  | [] => []
  | [c] => c
  | c :: cs => c ++ '/' :: joinSlash cs

/-- One step of posixpath.normpath's component processing: empty and
single-dot components are dropped; a dotdot component pops the previous
component unless there is nothing to pop (at the start of a relative path,
or after an unpopped dotdot, it is kept; at the root of an absolute path
it is dropped). -/
def normStep (slashes : Nat) (stack : List Str) (comp : Str) : List Str :=
  if comp = [] ∨ comp = ['.'] then stack
  else if comp ≠ dotdot ∨ (slashes = 0 ∧ stack = []) ∨
      (stack ≠ [] ∧ stack.getLast? = some dotdot) then
    stack ++ [comp]
  else if stack ≠ [] then stack.dropLast
  else stack

/-- Modelled from Python's posixpath.normpath: collapse empty, dot and
dotdot components, preserving the initial-slash count. -/
def normpath (p : Str) : Str :=
  if p = [] then ['.']
  else
    let slashes := initSlashes p
    let comps := (splitSep '/' p).foldl (normStep slashes) []
    let out := List.replicate slashes '/' ++ joinSlash comps
    if out = [] then ['.'] else out

/-- Modelled from Python's posixpath.abspath: join a relative path onto
the working directory, then normalize. -/
def abspath (cwd p : Str) : Str :=
  if isabs p then normpath p else normpath (join cwd p)

/-- Length of the longest common prefix of two component lists
(os.path.commonprefix applied to a pair of lists). -/
def commonPrefixLen : List Str → List Str → Nat
  | x :: xs, y :: ys => if x = y then commonPrefixLen xs ys + 1 else 0
  | _, _ => 0

/-- posixpath.join folded over a non-empty list of components. -/
def joinMany : List Str → Str
  | [] => []
  | h :: t => t.foldl join h

/-- Modelled from Python's posixpath.relpath (the ValueError raised on an
empty input path is omitted; every call in this development reaches
relpath with a non-empty path). -/
def relpath (cwd p start : Str) : Str :=
  let startList := (splitSep '/' (abspath cwd start)).filter (fun c => c ≠ [])
  let pathList := (splitSep '/' (abspath cwd p)).filter (fun c => c ≠ [])
  let i := commonPrefixLen startList pathList
  let rel := List.replicate (startList.length - i) dotdot ++ pathList.drop i
  if rel = [] then ['.'] else joinMany rel

/-- Python's str.replace of every backslash by a forward slash. -/
def replaceBackslashes (p : Str) : Str :=
  p.map (fun c => if c = '\\' then '/' else c)

/-- Modelled from granite.utils.path_as_key: absolutize, relate back to
`relative_to`, normalize, and replace backslash separators. -/
def path_as_key (cwd p relative_to : Str) : Str :=
  replaceBackslashes (normpath (relpath cwd (abspath cwd p) relative_to))

/-- Modelled from the spec: the path-normalization algorithm as the spec
states it, reproduced word for word to be compared with the source's
Snapshot._massage_path: (1) if the input path is not absolute, join it
onto the snapshot root first; (2) compute the path relative to the
snapshot root; (3) collapse dot and dotdot segments; (4) replace all
backslash separators with forward slashes. -/
def specMassage (cwd root p : Str) : Str :=
  replaceBackslashes
    (normpath (relpath cwd (if isabs p then p else join root p) root))

/-! ## The data model -/

/-- Modelled from granite.environment.FileStat: the os.stat fields plus
the md5 content digest.  The timestamps are modelled as integers; the
snapshot core only ever compares them for equality. -/
structure FileStat where
  st_mode : Nat
  st_ino : Nat
  st_dev : Nat
  st_nlink : Nat
  st_uid : Nat
  st_gid : Nat
  st_size : Nat
  st_atime : Int
  st_mtime : Int
  st_ctime : Int
  md5 : Str
deriving DecidableEq, Repr

/-- Modelled from granite.environment.Snapshot: the snapshot root and the
mapping from normalized relative path keys to FileStat records, in walk
order.  (The construction-time directory walk itself is filesystem I/O
and is not modelled; theorems quantify over the resulting state.) -/
structure Snapshot where
  root : Str
  paths : List (Str × FileStat)
deriving DecidableEq, Repr

/-- A Python value passed to one of the snapshot's dunder methods: a
string, a non-string such as an integer, or another snapshot. -/
inductive Value where
  | str : Str → Value
  | int : Int → Value
  | snap : Snapshot → Value
deriving DecidableEq, Repr

/-- Iteration over a snapshot (Snapshot.__iter__) yields the keys of its
paths dict in insertion order. -/
def Snapshot.keys (s : Snapshot) : List Str := s.paths.map Prod.fst

/-- Lookup in the paths dict: the record stored under a key. -/
def lookupKey : List (Str × FileStat) → Str → Option FileStat
  | [], _ => none
  | q :: qs, k => if q.fst = k then some q.snd else lookupKey qs k

/-- The string-level core of Snapshot._massage_path: join a relative path
onto the snapshot root, then convert to key form via path_as_key. -/
def Snapshot.massageStr (cwd : Str) (s : Snapshot) (p : Str) : Str :=
  path_as_key cwd (if isabs p then p else join s.root p) s.root

/-- Modelled from Snapshot._massage_path: a non-string argument raises
ValueError; a string is converted to its unique key form. -/
def Snapshot.massage_path (cwd : Str) (s : Snapshot) (v : Value) :
    Except PyError Str :=
  match v with
  | Value.str p => Except.ok (s.massageStr cwd p)
  | _ => Except.error PyError.valueError

/-- Modelled from Snapshot.__contains__, specialized to string arguments:
massage the path and test membership in the paths dict. -/
def Snapshot.containsStr (cwd : Str) (s : Snapshot) (p : Str) : Bool :=
  (lookupKey s.paths (s.massageStr cwd p)).isSome

/-- Modelled from Snapshot.__contains__ on an arbitrary value: the
ValueError from _massage_path propagates. -/
def Snapshot.containsVal (cwd : Str) (s : Snapshot) (v : Value) :
    Except PyError Bool :=
  (s.massage_path cwd v).map (fun k => (lookupKey s.paths k).isSome)

/-- Modelled from Snapshot.__getitem__, specialized to string arguments:
massage the path and look it up in the paths dict; a missing key raises
KeyError. -/
def Snapshot.getStr (cwd : Str) (s : Snapshot) (p : Str) :
    Except PyError FileStat :=
  match lookupKey s.paths (s.massageStr cwd p) with
  | some r => Except.ok r
  | none => Except.error (PyError.keyError (s.massageStr cwd p))

/-- Modelled from Snapshot.__getitem__ on an arbitrary value. -/
def Snapshot.getitem (cwd : Str) (s : Snapshot) (v : Value) :
    Except PyError FileStat := do
  let k ← s.massage_path cwd v
  match lookupKey s.paths k with
  | some r => Except.ok r
  | none => Except.error (PyError.keyError k)

/-- Modelled from Snapshot.SnapshotDiff: the two snapshots being
compared, a diff being a - b. -/
structure SnapshotDiff where
  a : Snapshot
  b : Snapshot
deriving DecidableEq, Repr

/-- Modelled from Snapshot.__sub__: a non-snapshot operand raises
TypeError; a snapshot operand yields SnapshotDiff(self, other). -/
def Snapshot.sub (s : Snapshot) (v : Value) : Except PyError SnapshotDiff :=
  match v with
  | Value.snap t => Except.ok (SnapshotDiff.mk s t)
  | _ => Except.error PyError.typeError

/-- Modelled from SnapshotDiff.added: the keys of a that are not
contained in b. -/
def SnapshotDiff.added (cwd : Str) (d : SnapshotDiff) : List Str :=
  d.a.keys.filter (fun k => !(d.b.containsStr cwd k))

/-- Modelled from SnapshotDiff.removed: the keys of b that are not
contained in a. -/
def SnapshotDiff.removed (cwd : Str) (d : SnapshotDiff) : List Str :=
  d.b.keys.filter (fun k => !(d.a.containsStr cwd k))

/-- The loop body of SnapshotDiff.modified over a list of keys of a: for
each key contained in b, compare the two records' digests; a dict lookup
failure raises KeyError exactly as self.a[path] would. -/
def modifiedAux (cwd : Str) (a b : Snapshot) :
    List Str → Except PyError (List Str)
  | [] => Except.ok []
  | k :: ks =>
    if b.containsStr cwd k then do
      let ra ← a.getStr cwd k
      let rb ← b.getStr cwd k
      let rest ← modifiedAux cwd a b ks
      pure (if ra.md5 ≠ rb.md5 then k :: rest else rest)
    else modifiedAux cwd a b ks

/-- Modelled from SnapshotDiff.modified: the keys present in both
snapshots whose digests differ. -/
def SnapshotDiff.modified (cwd : Str) (d : SnapshotDiff) :
    Except PyError (List Str) :=
  modifiedAux cwd d.a d.b d.a.keys

/-- The loop body of SnapshotDiff.touched over a list of keys of a: for
each key contained in b, keep it when the modification times differ but
the digests agree. -/
def touchedAux (cwd : Str) (a b : Snapshot) :
    List Str → Except PyError (List Str)
  | [] => Except.ok []
  | k :: ks =>
    if b.containsStr cwd k then do
      let ra ← a.getStr cwd k
      let rb ← b.getStr cwd k
      let rest ← touchedAux cwd a b ks
      pure (if ra.st_mtime ≠ rb.st_mtime ∧ ra.md5 = rb.md5 then k :: rest
            else rest)
    else touchedAux cwd a b ks

/-- Modelled from SnapshotDiff.touched: the keys present in both
snapshots whose modification times differ while the digests agree. -/
def SnapshotDiff.touched (cwd : Str) (d : SnapshotDiff) :
    Except PyError (List Str) :=
  touchedAux cwd d.a d.b d.a.keys

/-- Every key in the list is a fixed point of snapshot t's path
massaging.  A snapshot built by the construction-time walk stores keys in
path_as_key normal form, which the massaging of any walk-built snapshot
maps to themselves; this decidable predicate captures that property of
walk-built snapshots. -/
def keysFixedUnder (cwd : Str) (t : Snapshot) (ks : List Str) : Bool :=
  ks.all (fun k => t.massageStr cwd k == k)

/-- Both snapshots of a diff hold walk-normalized keys: every key of
either snapshot is massage-invariant under both snapshots. -/
def diffOk (cwd : Str) (d : SnapshotDiff) : Bool :=
  keysFixedUnder cwd d.a d.a.keys && keysFixedUnder cwd d.b d.a.keys &&
    keysFixedUnder cwd d.a d.b.keys && keysFixedUnder cwd d.b d.b.keys

/-! ## The MD5 model

Snapshot._hash_file feeds the file's bytes to hashlib.md5 in chunks of
CHUNK_SIZE_MB bytes and returns the lowercase hexadecimal digest.  The
MD5 algorithm (RFC 1321) is implemented here over byte lists, both as a
one-shot function over a whole message and as the buffering update /
hexdigest interface that hashlib exposes. -/

/-- Modelled from granite.environment.CHUNK_SIZE_MB. -/
def CHUNK_SIZE_MB : Nat := 15 * 1024 * 1024

/-- Reduction to a 32-bit word. -/
def w32 (n : Nat) : Nat := n % 4294967296

/-- Bitwise complement within 32 bits. -/
def w32not (n : Nat) : Nat := Nat.xor n 4294967295

/-- Left rotation of a 32-bit word. -/
def rotl (x s : Nat) : Nat := w32 (x * 2 ^ s + x / 2 ^ (32 - s))

/-- The MD5 round function for operation index i. -/
def md5F (i b c d : Nat) : Nat :=
  if i < 16 then Nat.lor (Nat.land b c) (Nat.land (w32not b) d)
  else if i < 32 then Nat.lor (Nat.land d b) (Nat.land (w32not d) c)
  else if i < 48 then Nat.xor b (Nat.xor c d)
  else Nat.xor c (Nat.lor b (w32not d))

/-- The message-word index used by operation i. -/
def md5g (i : Nat) : Nat :=
  if i < 16 then i
  else if i < 32 then (5 * i + 1) % 16
  else if i < 48 then (3 * i + 5) % 16
  else (7 * i) % 16

/-- The per-operation left-rotation amounts. -/
def md5s (i : Nat) : Nat :=
  [7, 12, 17, 22, 7, 12, 17, 22, 7, 12, 17, 22, 7, 12, 17, 22,
   5, 9, 14, 20, 5, 9, 14, 20, 5, 9, 14, 20, 5, 9, 14, 20,
   4, 11, 16, 23, 4, 11, 16, 23, 4, 11, 16, 23, 4, 11, 16, 23,
   6, 10, 15, 21, 6, 10, 15, 21, 6, 10, 15, 21, 6, 10, 15, 21].getD i 0

/-- The MD5 sine-derived additive constants. -/
def md5K (i : Nat) : Nat :=
  [0xd76aa478, 0xe8c7b756, 0x242070db, 0xc1bdceee,
   0xf57c0faf, 0x4787c62a, 0xa8304613, 0xfd469501,
   0x698098d8, 0x8b44f7af, 0xffff5bb1, 0x895cd7be,
   0x6b901122, 0xfd987193, 0xa679438e, 0x49b40821,
   0xf61e2562, 0xc040b340, 0x265e5a51, 0xe9b6c7aa,
   0xd62f105d, 0x02441453, 0xd8a1e681, 0xe7d3fbc8,
   0x21e1cde6, 0xc33707d6, 0xf4d50d87, 0x455a14ed,
   0xa9e3e905, 0xfcefa3f8, 0x676f02d9, 0x8d2a4c8a,
   0xfffa3942, 0x8771f681, 0x6d9d6122, 0xfde5380c,
   0xa4beea44, 0x4bdecfa9, 0xf6bb4b60, 0xbebfbc70,
   0x289b7ec6, 0xeaa127fa, 0xd4ef3085, 0x04881d05,
   0xd9d4d039, 0xe6db99e5, 0x1fa27cf8, 0xc4ac5665,
   0xf4292244, 0x432aff97, 0xab9423a7, 0xfc93a039,
   0x655b59c3, 0x8f0ccc92, 0xffeff47d, 0x85845dd1,
   0x6fa87e4f, 0xfe2ce6e0, 0xa3014314, 0x4e0811a1,
   0xf7537e82, 0xbd3af235, 0x2ad7d2bb, 0xeb86d391].getD i 0

/-- The little-endian 32-bit word starting at byte offset 4*j of a
block. -/
def blockWord (block : List Nat) (j : Nat) : Nat :=
  block.getD (4 * j) 0 + 256 * block.getD (4 * j + 1) 0 +
    65536 * block.getD (4 * j + 2) 0 + 16777216 * block.getD (4 * j + 3) 0

/-- The MD5 chaining state. -/
abbrev MD5Core := Nat × Nat × Nat × Nat

/-- The MD5 initial chaining state. -/
def md5Init : MD5Core := (0x67452301, 0xefcdab89, 0x98badcfe, 0x10325476)

/-- One of the 64 operations of an MD5 block computation. -/
def md5Op (m : Nat → Nat) (st : MD5Core) (i : Nat) : MD5Core :=
  let (a, b, c, d) := st
  let f := w32 (md5F i b c d + a + md5K i + m (md5g i))
  (d, w32 (b + rotl f (md5s i)), b, c)

/-- The MD5 compression function over one 64-byte block. -/
def md5Compress (st : MD5Core) (block : List Nat) : MD5Core :=
  let st2 := (List.range 64).foldl (md5Op (blockWord block)) st
  (w32 (st.1 + st2.1), w32 (st.2.1 + st2.2.1), w32 (st.2.2.1 + st2.2.2.1),
    w32 (st.2.2.2 + st2.2.2.2))

/-- Split a byte list into its maximal run of leading 64-byte blocks and
the remainder of fewer than 64 bytes. -/
def splitBlocks (l : List Nat) : List (List Nat) × List Nat :=
  if _h : 64 ≤ l.length then
    let p := splitBlocks (l.drop 64)
    (l.take 64 :: p.1, p.2)
  else ([], l)
termination_by l.length
decreasing_by simp [List.length_drop]; omega

/-- The buffering state of a hashlib md5 object: chaining state, pending
bytes not yet forming a whole block, and the total byte count absorbed. -/
structure MD5S where
  core : MD5Core
  buf : List Nat
  len : Nat
deriving DecidableEq, Repr

/-- A fresh hashlib.md5() object. -/
def md5New : MD5S := ⟨md5Init, [], 0⟩

/-- hashlib's update: append the data to the pending buffer and compress
every complete 64-byte block. -/
def md5Update (s : MD5S) (data : List Nat) : MD5S :=
  let p := splitBlocks (s.buf ++ data)
  ⟨p.1.foldl md5Compress s.core, p.2, s.len + data.length⟩

/-- The number of zero bytes of MD5 padding for a message of n bytes. -/
def padZeros (n : Nat) : Nat := (64 + 56 - (n % 64 + 1)) % 64

/-- The little-endian base-256 digits of n, w bytes wide. -/
def leBytes : Nat → Nat → List Nat
  | _, 0 => []
  | n, w + 1 => n % 256 :: leBytes (n / 256) w

/-- The MD5 padding suffix for a message of n bytes: one 0x80 byte, zero
bytes up to 56 modulo 64, then the bit length as eight little-endian
bytes. -/
def md5Padding (n : Nat) : List Nat :=
  128 :: List.replicate (padZeros n) 0 ++ leBytes ((n * 8) % 2 ^ 64) 8

/-- hexdigest's rendering of a half-byte. -/
def hexChar (n : Nat) : Char :=
  if n < 10 then Char.ofNat (48 + n) else Char.ofNat (87 + n)

/-- hexdigest's rendering of one byte as two lowercase hex characters. -/
def byteHex (n : Nat) : Str := [hexChar (n / 16), hexChar (n % 16)]

/-- The 16 digest bytes of a chaining state, little-endian per word. -/
def digestBytes (st : MD5Core) : List Nat :=
  leBytes st.1 4 ++ leBytes st.2.1 4 ++ leBytes st.2.2.1 4 ++
    leBytes st.2.2.2 4

/-- hashlib's hexdigest: pad the pending buffer out to complete blocks,
compress them, and render the final chaining state in hex. -/
def md5Hexdigest (s : MD5S) : Str :=
  let p := splitBlocks (s.buf ++ md5Padding s.len)
  ((digestBytes (p.1.foldl md5Compress s.core)).map byteHex).flatten

/-- The one-shot MD5 of a whole message, stated independently of the
buffering interface: pad the message, split the padded message into
64-byte blocks, and fold the compression function over them. -/
def md5Hex (msg : List Nat) : Str :=
  ((digestBytes
      ((splitBlocks (msg ++ md5Padding msg.length)).1.foldl md5Compress
        md5Init)).map byteHex).flatten

/-- The chunks in which Snapshot._hash_file reads a file: successive
pieces of CHUNK_SIZE_MB bytes. -/
def readChunks (l : List Nat) : List (List Nat) :=
  if l = [] then []
  else l.take CHUNK_SIZE_MB :: readChunks (l.drop CHUNK_SIZE_MB)
termination_by l.length
decreasing_by
  rename_i hne
  have hpos : 0 < l.length := List.length_pos.mpr hne
  simp only [List.length_drop, CHUNK_SIZE_MB]
  omega

/-- Streaming a list of chunks through a hashlib md5 object and taking
the hexdigest. -/
def md5Stream (chunks : List (List Nat)) : Str :=
  md5Hexdigest (chunks.foldl md5Update md5New)

/-- Modelled from Snapshot._hash_file: read the file in chunks of
CHUNK_SIZE_MB bytes, feed each chunk to the md5 object, and return the
hexdigest.  The file's contents are passed as a byte list. -/
def hash_file (contents : List Nat) : Str :=
  md5Stream (readChunks contents)

/-! ## Concrete fixtures used by witness theorems -/

/-- A concrete working directory. -/
def cwd0 : Str := pstr "/home/user"

/-- A FileStat record with the given modification time and digest. -/
def mkStat (mt : Int) (h : Str) : FileStat :=
  ⟨33188, 7, 2049, 1, 1000, 1000, 12, 100, mt, 100, h⟩

/-- A snapshot fixture tracking mod.txt, touched.txt and added.txt. -/
def snapA : Snapshot :=
  ⟨pstr "/tmp/proj",
   [(pstr "mod.txt", mkStat 11 (pstr "aa")),
    (pstr "touched.txt", mkStat 12 (pstr "bb")),
    (pstr "added.txt", mkStat 13 (pstr "cc"))]⟩

/-- A snapshot fixture tracking mod.txt, touched.txt and removed.txt. -/
def snapB : Snapshot :=
  ⟨pstr "/tmp/proj",
   [(pstr "mod.txt", mkStat 1 (pstr "dd")),
    (pstr "touched.txt", mkStat 2 (pstr "bb")),
    (pstr "removed.txt", mkStat 3 (pstr "ee"))]⟩

/-! ## Dictionary lemmas -/

theorem lookupKey_isSome_iff (ps : List (Str × FileStat)) (k : Str) :
    (lookupKey ps k).isSome = true ↔ k ∈ ps.map Prod.fst := by
  induction ps with
  | nil => simp [lookupKey]
  | cons q qs ih =>
    by_cases h : q.fst = k
    · simp [lookupKey, h]
    · simp [lookupKey, h, ih, Ne.symm h]

theorem lookupKey_eq_none_iff (ps : List (Str × FileStat)) (k : Str) :
    lookupKey ps k = none ↔ k ∉ ps.map Prod.fst := by
  rw [← lookupKey_isSome_iff]
  cases lookupKey ps k <;> simp

theorem lookupKey_mem_some (ps : List (Str × FileStat)) (k : Str)
    (h : k ∈ ps.map Prod.fst) : ∃ r, lookupKey ps k = some r := by
  have := (lookupKey_isSome_iff ps k).mpr h
  cases hv : lookupKey ps k with
  | none => rw [hv] at this; cases this
  | some r => exact ⟨r, rfl⟩

/-! ## Characterizations of the four diff sets -/

theorem keysFixedUnder_iff (cwd : Str) (t : Snapshot) (ks : List Str) :
    keysFixedUnder cwd t ks = true ↔
      ∀ k ∈ ks, t.massageStr cwd k = k := by
  simp [keysFixedUnder, List.all_eq_true]

theorem diffOk_parts (cwd : Str) (d : SnapshotDiff)
    (h : diffOk cwd d = true) :
    (∀ k ∈ d.a.keys, d.a.massageStr cwd k = k) ∧
      (∀ k ∈ d.a.keys, d.b.massageStr cwd k = k) ∧
      (∀ k ∈ d.b.keys, d.a.massageStr cwd k = k) ∧
      (∀ k ∈ d.b.keys, d.b.massageStr cwd k = k) := by
  simp only [diffOk, Bool.and_eq_true] at h
  exact ⟨(keysFixedUnder_iff _ _ _).mp h.1.1.1,
    (keysFixedUnder_iff _ _ _).mp h.1.1.2,
    (keysFixedUnder_iff _ _ _).mp h.1.2,
    (keysFixedUnder_iff _ _ _).mp h.2⟩

theorem containsStr_of_fixed (cwd : Str) (t : Snapshot) (k : Str)
    (h : t.massageStr cwd k = k) :
    t.containsStr cwd k = (lookupKey t.paths k).isSome := by
  simp [Snapshot.containsStr, h]

theorem added_mem (cwd : Str) (d : SnapshotDiff) (k : Str)
    (hb : ∀ j ∈ d.a.keys, d.b.massageStr cwd j = j) :
    k ∈ d.added cwd ↔ k ∈ d.a.keys ∧ k ∉ d.b.keys := by
  simp only [SnapshotDiff.added, List.mem_filter, Bool.not_eq_eq_eq_not,
    Bool.not_true]
  constructor
  · rintro ⟨hk, hc⟩
    refine ⟨hk, fun hkb => ?_⟩
    rw [containsStr_of_fixed cwd d.b k (hb k hk)] at hc
    rw [(lookupKey_isSome_iff _ _).mpr hkb] at hc
    cases hc
  · rintro ⟨hk, hkb⟩
    refine ⟨hk, ?_⟩
    rw [containsStr_of_fixed cwd d.b k (hb k hk)]
    cases hv : (lookupKey d.b.paths k).isSome with
    | false => rfl
    | true => exact absurd ((lookupKey_isSome_iff _ _).mp hv) hkb

theorem removed_mem (cwd : Str) (d : SnapshotDiff) (k : Str)
    (ha : ∀ j ∈ d.b.keys, d.a.massageStr cwd j = j) :
    k ∈ d.removed cwd ↔ k ∈ d.b.keys ∧ k ∉ d.a.keys := by
  simp only [SnapshotDiff.removed, List.mem_filter, Bool.not_eq_eq_eq_not,
    Bool.not_true]
  constructor
  · rintro ⟨hk, hc⟩
    refine ⟨hk, fun hka => ?_⟩
    rw [containsStr_of_fixed cwd d.a k (ha k hk)] at hc
    rw [(lookupKey_isSome_iff _ _).mpr hka] at hc
    cases hc
  · rintro ⟨hk, hka⟩
    refine ⟨hk, ?_⟩
    rw [containsStr_of_fixed cwd d.a k (ha k hk)]
    cases hv : (lookupKey d.a.paths k).isSome with
    | false => rfl
    | true => exact absurd ((lookupKey_isSome_iff _ _).mp hv) hka

theorem except_bind_ok {α β : Type} (x : α) (f : α → Except PyError β) :
    (Except.ok x >>= f) = f x := rfl

theorem getStr_of_fixed (cwd : Str) (t : Snapshot) (k : Str) (r : FileStat)
    (hfix : t.massageStr cwd k = k) (hr : lookupKey t.paths k = some r) :
    t.getStr cwd k = Except.ok r := by
  simp [Snapshot.getStr, hfix, hr]

theorem modifiedAux_spec (cwd : Str) (a b : Snapshot) (l : List Str)
    (hl : ∀ k ∈ l, a.massageStr cwd k = k ∧ b.massageStr cwd k = k ∧
      k ∈ a.keys) :
    ∃ res, modifiedAux cwd a b l = Except.ok res ∧
      ∀ k, k ∈ res ↔ k ∈ l ∧ ∃ ra rb, lookupKey a.paths k = some ra ∧
        lookupKey b.paths k = some rb ∧ ra.md5 ≠ rb.md5 := by
  induction l with
  | nil => exact ⟨[], rfl, by simp [modifiedAux]⟩
  | cons k ks ih =>
    obtain ⟨hak, hbk, hka⟩ := hl k (List.mem_cons_self k ks)
    obtain ⟨res, hres, hmem⟩ :=
      ih (fun j hj => hl j (List.mem_cons_of_mem k hj))
    obtain ⟨ra, hra⟩ := lookupKey_mem_some a.paths k hka
    have hget : a.getStr cwd k = Except.ok ra := getStr_of_fixed cwd a k ra hak hra
    have hcon : b.containsStr cwd k = (lookupKey b.paths k).isSome :=
      containsStr_of_fixed cwd b k hbk
    cases hv : lookupKey b.paths k with
    | none =>
      have hc : b.containsStr cwd k = false := by rw [hcon, hv]; rfl
      refine ⟨res, ?_, fun j => ?_⟩
      · simp [modifiedAux, hc, hres]
      · rw [hmem j]
        constructor
        · rintro ⟨hj, hp⟩; exact ⟨List.mem_cons_of_mem k hj, hp⟩
        · rintro ⟨hj, hp⟩
          rcases List.mem_cons.mp hj with hjk | hjk
          · subst hjk
            obtain ⟨ra', rb', hra', hrb', hne⟩ := hp
            rw [hv] at hrb'; cases hrb'
          · exact ⟨hjk, hp⟩
    | some rb =>
      have hc : b.containsStr cwd k = true := by rw [hcon, hv]; rfl
      have hgetb : b.getStr cwd k = Except.ok rb :=
        getStr_of_fixed cwd b k rb hbk hv
      by_cases hmd : ra.md5 = rb.md5
      · refine ⟨res, ?_, fun j => ?_⟩
        · simp [modifiedAux, hc, hget, hgetb, except_bind_ok, hres, hmd]
        · rw [hmem j]
          constructor
          · rintro ⟨hj, hp⟩; exact ⟨List.mem_cons_of_mem k hj, hp⟩
          · rintro ⟨hj, hp⟩
            rcases List.mem_cons.mp hj with hjk | hjk
            · subst hjk
              obtain ⟨ra', rb', hra', hrb', hne⟩ := hp
              rw [hra] at hra'; rw [hv] at hrb'
              cases hra'; cases hrb'
              exact absurd hmd hne
            · exact ⟨hjk, hp⟩
      · refine ⟨k :: res, ?_, fun j => ?_⟩
        · simp [modifiedAux, hc, hget, hgetb, except_bind_ok, hres, hmd]
        · constructor
          · intro hj
            rcases List.mem_cons.mp hj with hjk | hjk
            · rw [hjk]
              exact ⟨List.mem_cons_self k ks, ra, rb, hra, hv, hmd⟩
            · obtain ⟨hj', hp⟩ := (hmem j).mp hjk
              exact ⟨List.mem_cons_of_mem k hj', hp⟩
          · rintro ⟨hj, hp⟩
            rcases List.mem_cons.mp hj with hjk | hjk
            · rw [hjk]; exact List.mem_cons_self k res
            · exact List.mem_cons_of_mem k ((hmem j).mpr ⟨hjk, hp⟩)

theorem touchedAux_spec (cwd : Str) (a b : Snapshot) (l : List Str)
    (hl : ∀ k ∈ l, a.massageStr cwd k = k ∧ b.massageStr cwd k = k ∧
      k ∈ a.keys) :
    ∃ res, touchedAux cwd a b l = Except.ok res ∧
      ∀ k, k ∈ res ↔ k ∈ l ∧ ∃ ra rb, lookupKey a.paths k = some ra ∧
        lookupKey b.paths k = some rb ∧ ra.st_mtime ≠ rb.st_mtime ∧
        ra.md5 = rb.md5 := by
  induction l with
  | nil => exact ⟨[], rfl, by simp [touchedAux]⟩
  | cons k ks ih =>
    obtain ⟨hak, hbk, hka⟩ := hl k (List.mem_cons_self k ks)
    obtain ⟨res, hres, hmem⟩ :=
      ih (fun j hj => hl j (List.mem_cons_of_mem k hj))
    obtain ⟨ra, hra⟩ := lookupKey_mem_some a.paths k hka
    have hget : a.getStr cwd k = Except.ok ra := getStr_of_fixed cwd a k ra hak hra
    have hcon : b.containsStr cwd k = (lookupKey b.paths k).isSome :=
      containsStr_of_fixed cwd b k hbk
    cases hv : lookupKey b.paths k with
    | none =>
      have hc : b.containsStr cwd k = false := by rw [hcon, hv]; rfl
      refine ⟨res, ?_, fun j => ?_⟩
      · simp [touchedAux, hc, hres]
      · rw [hmem j]
        constructor
        · rintro ⟨hj, hp⟩; exact ⟨List.mem_cons_of_mem k hj, hp⟩
        · rintro ⟨hj, hp⟩
          rcases List.mem_cons.mp hj with hjk | hjk
          · subst hjk
            obtain ⟨ra', rb', hra', hrb', hne⟩ := hp
            rw [hv] at hrb'; cases hrb'
          · exact ⟨hjk, hp⟩
    | some rb =>
      have hc : b.containsStr cwd k = true := by rw [hcon, hv]; rfl
      have hgetb : b.getStr cwd k = Except.ok rb :=
        getStr_of_fixed cwd b k rb hbk hv
      by_cases hp : ra.st_mtime ≠ rb.st_mtime ∧ ra.md5 = rb.md5
      · refine ⟨k :: res, ?_, fun j => ?_⟩
        · simp [touchedAux, hc, hget, hgetb, except_bind_ok, hres, hp]
        · constructor
          · intro hj
            rcases List.mem_cons.mp hj with hjk | hjk
            · rw [hjk]
              exact ⟨List.mem_cons_self k ks, ra, rb, hra, hv, hp.1, hp.2⟩
            · obtain ⟨hj', hq⟩ := (hmem j).mp hjk
              exact ⟨List.mem_cons_of_mem k hj', hq⟩
          · rintro ⟨hj, hq⟩
            rcases List.mem_cons.mp hj with hjk | hjk
            · rw [hjk]; exact List.mem_cons_self k res
            · exact List.mem_cons_of_mem k ((hmem j).mpr ⟨hjk, hq⟩)
      · refine ⟨res, ?_, fun j => ?_⟩
        · simp [touchedAux, hc, hget, hgetb, except_bind_ok, hres, hp]
        · rw [hmem j]
          constructor
          · rintro ⟨hj, hq⟩; exact ⟨List.mem_cons_of_mem k hj, hq⟩
          · rintro ⟨hj, hq⟩
            rcases List.mem_cons.mp hj with hjk | hjk
            · subst hjk
              obtain ⟨ra', rb', hra', hrb', hne, heq⟩ := hq
              rw [hra] at hra'; rw [hv] at hrb'
              cases hra'; cases hrb'
              exact absurd ⟨hne, heq⟩ hp
            · exact ⟨hjk, hq⟩

/-! ## The claims -/

/-- C1: for every diff d = a - b between walk-built snapshots, d.added is
exactly the set of path keys present in a's mapping and absent from b's
mapping, and d.removed is exactly the set of path keys present in b's
mapping and absent from a's mapping. -/
theorem claim_C1 (cwd : Str) (a b : Snapshot)
    (h : diffOk cwd (SnapshotDiff.mk a b) = true) (k : Str) :
    (k ∈ (SnapshotDiff.mk a b).added cwd ↔ k ∈ a.keys ∧ k ∉ b.keys) ∧
      (k ∈ (SnapshotDiff.mk a b).removed cwd ↔ k ∈ b.keys ∧ k ∉ a.keys) := by
  obtain ⟨h1, h2, h3, h4⟩ := diffOk_parts cwd _ h
  exact ⟨added_mem cwd _ k h2, removed_mem cwd _ k h3⟩

/-- Witness for C1 at concrete snapshots and the key added.txt. -/
theorem claim_C1_witness :
    (pstr "added.txt" ∈ (SnapshotDiff.mk snapA snapB).added cwd0 ↔
      pstr "added.txt" ∈ snapA.keys ∧ pstr "added.txt" ∉ snapB.keys) ∧
      (pstr "added.txt" ∈ (SnapshotDiff.mk snapA snapB).removed cwd0 ↔
        pstr "added.txt" ∈ snapB.keys ∧ pstr "added.txt" ∉ snapA.keys) :=
  claim_C1 cwd0 snapA snapB (by decide) (pstr "added.txt")

/-- C2: for every diff d = a - b between walk-built snapshots, d.modified
is exactly the set of paths present in both snapshots whose content
digests differ, and d.touched is exactly the set of paths present in both
snapshots whose digests are equal but whose st_mtime modification
timestamps differ (no other stat field is consulted). -/
theorem claim_C2 (cwd : Str) (a b : Snapshot)
    (h : diffOk cwd (SnapshotDiff.mk a b) = true) :
    ∃ lm lt, (SnapshotDiff.mk a b).modified cwd = Except.ok lm ∧
      (SnapshotDiff.mk a b).touched cwd = Except.ok lt ∧
      ∀ k, (k ∈ lm ↔ k ∈ a.keys ∧ k ∈ b.keys ∧
          ∃ ra rb, lookupKey a.paths k = some ra ∧
            lookupKey b.paths k = some rb ∧ ra.md5 ≠ rb.md5) ∧
        (k ∈ lt ↔ k ∈ a.keys ∧ k ∈ b.keys ∧
          ∃ ra rb, lookupKey a.paths k = some ra ∧
            lookupKey b.paths k = some rb ∧ ra.md5 = rb.md5 ∧
            ra.st_mtime ≠ rb.st_mtime) := by
  obtain ⟨h1, h2, h3, h4⟩ := diffOk_parts cwd _ h
  have hl : ∀ k ∈ a.keys, a.massageStr cwd k = k ∧ b.massageStr cwd k = k ∧
      k ∈ a.keys := fun k hk => ⟨h1 k hk, h2 k hk, hk⟩
  obtain ⟨lm, hlm, hmemm⟩ := modifiedAux_spec cwd a b a.keys hl
  obtain ⟨lt, hlt, hmemt⟩ := touchedAux_spec cwd a b a.keys hl
  refine ⟨lm, lt, hlm, hlt, fun k => ⟨?_, ?_⟩⟩
  · rw [hmemm k]
    constructor
    · rintro ⟨hk, ra, rb, hra, hrb, hne⟩
      exact ⟨hk, (lookupKey_isSome_iff _ _).mp (by rw [hrb]; rfl),
        ra, rb, hra, hrb, hne⟩
    · rintro ⟨hk, _, hp⟩; exact ⟨hk, hp⟩
  · rw [hmemt k]
    constructor
    · rintro ⟨hk, ra, rb, hra, hrb, hne, heq⟩
      exact ⟨hk, (lookupKey_isSome_iff _ _).mp (by rw [hrb]; rfl),
        ra, rb, hra, hrb, heq, hne⟩
    · rintro ⟨hk, _, ra, rb, hra, hrb, heq, hne⟩
      exact ⟨hk, ra, rb, hra, hrb, hne, heq⟩

/-- Witness for C2 at concrete snapshots. -/
theorem claim_C2_witness :
    ∃ lm lt, (SnapshotDiff.mk snapA snapB).modified cwd0 = Except.ok lm ∧
      (SnapshotDiff.mk snapA snapB).touched cwd0 = Except.ok lt ∧
      ∀ k, (k ∈ lm ↔ k ∈ snapA.keys ∧ k ∈ snapB.keys ∧
          ∃ ra rb, lookupKey snapA.paths k = some ra ∧
            lookupKey snapB.paths k = some rb ∧ ra.md5 ≠ rb.md5) ∧
        (k ∈ lt ↔ k ∈ snapA.keys ∧ k ∈ snapB.keys ∧
          ∃ ra rb, lookupKey snapA.paths k = some ra ∧
            lookupKey snapB.paths k = some rb ∧ ra.md5 = rb.md5 ∧
            ra.st_mtime ≠ rb.st_mtime) :=
  claim_C2 cwd0 snapA snapB (by decide)

/-- C3: for every diff d = a - b between walk-built snapshots, the four
derived sets added, removed, modified and touched are pairwise disjoint:
no path key appears in more than one of them. -/
theorem claim_C3 (cwd : Str) (a b : Snapshot)
    (h : diffOk cwd (SnapshotDiff.mk a b) = true) :
    ∃ lm lt, (SnapshotDiff.mk a b).modified cwd = Except.ok lm ∧
      (SnapshotDiff.mk a b).touched cwd = Except.ok lt ∧
      ∀ k, ¬(k ∈ (SnapshotDiff.mk a b).added cwd ∧
            k ∈ (SnapshotDiff.mk a b).removed cwd) ∧
        ¬(k ∈ (SnapshotDiff.mk a b).added cwd ∧ k ∈ lm) ∧
        ¬(k ∈ (SnapshotDiff.mk a b).added cwd ∧ k ∈ lt) ∧
        ¬(k ∈ (SnapshotDiff.mk a b).removed cwd ∧ k ∈ lm) ∧
        ¬(k ∈ (SnapshotDiff.mk a b).removed cwd ∧ k ∈ lt) ∧
        ¬(k ∈ lm ∧ k ∈ lt) := by
  obtain ⟨h1, h2, h3, h4⟩ := diffOk_parts cwd _ h
  have hl : ∀ k ∈ a.keys, a.massageStr cwd k = k ∧ b.massageStr cwd k = k ∧
      k ∈ a.keys := fun k hk => ⟨h1 k hk, h2 k hk, hk⟩
  obtain ⟨lm, hlm, hmemm⟩ := modifiedAux_spec cwd a b a.keys hl
  obtain ⟨lt, hlt, hmemt⟩ := touchedAux_spec cwd a b a.keys hl
  refine ⟨lm, lt, hlm, hlt, fun k => ?_⟩
  have hadd := added_mem cwd (SnapshotDiff.mk a b) k h2
  have hrem := removed_mem cwd (SnapshotDiff.mk a b) k h3
  refine ⟨?_, ?_, ?_, ?_, ?_, ?_⟩
  · rintro ⟨hx, hy⟩
    exact (hadd.mp hx).2 (hrem.mp hy).1
  · rintro ⟨hx, hy⟩
    obtain ⟨_, ra, rb, _, hrb, _⟩ := (hmemm k).mp hy
    exact (hadd.mp hx).2 ((lookupKey_isSome_iff _ _).mp (by rw [hrb]; rfl))
  · rintro ⟨hx, hy⟩
    obtain ⟨_, ra, rb, _, hrb, _⟩ := (hmemt k).mp hy
    exact (hadd.mp hx).2 ((lookupKey_isSome_iff _ _).mp (by rw [hrb]; rfl))
  · rintro ⟨hx, hy⟩
    exact (hrem.mp hx).2 ((hmemm k).mp hy).1
  · rintro ⟨hx, hy⟩
    exact (hrem.mp hx).2 ((hmemt k).mp hy).1
  · rintro ⟨hx, hy⟩
    obtain ⟨_, ra, rb, hra, hrb, hne⟩ := (hmemm k).mp hx
    obtain ⟨_, ra', rb', hra', hrb', _, heq⟩ := (hmemt k).mp hy
    rw [hra] at hra'; rw [hrb] at hrb'
    cases hra'; cases hrb'
    exact hne heq

/-- Witness for C3 at concrete snapshots. -/
theorem claim_C3_witness :
    ∃ lm lt, (SnapshotDiff.mk snapA snapB).modified cwd0 = Except.ok lm ∧
      (SnapshotDiff.mk snapA snapB).touched cwd0 = Except.ok lt ∧
      ∀ k, ¬(k ∈ (SnapshotDiff.mk snapA snapB).added cwd0 ∧
            k ∈ (SnapshotDiff.mk snapA snapB).removed cwd0) ∧
        ¬(k ∈ (SnapshotDiff.mk snapA snapB).added cwd0 ∧ k ∈ lm) ∧
        ¬(k ∈ (SnapshotDiff.mk snapA snapB).added cwd0 ∧ k ∈ lt) ∧
        ¬(k ∈ (SnapshotDiff.mk snapA snapB).removed cwd0 ∧ k ∈ lm) ∧
        ¬(k ∈ (SnapshotDiff.mk snapA snapB).removed cwd0 ∧ k ∈ lt) ∧
        ¬(k ∈ lm ∧ k ∈ lt) :=
  claim_C3 cwd0 snapA snapB (by decide)

/-- C4: subtraction is anti-symmetric in path membership: for all
snapshots a and b, (a - b).added equals (b - a).removed and
(a - b).removed equals (b - a).added. -/
theorem claim_C4 (cwd : Str) (a b : Snapshot) :
    (SnapshotDiff.mk a b).added cwd = (SnapshotDiff.mk b a).removed cwd ∧
      (SnapshotDiff.mk a b).removed cwd = (SnapshotDiff.mk b a).added cwd :=
  ⟨rfl, rfl⟩

/-- Witness for C4 at concrete snapshots. -/
theorem claim_C4_witness :
    (SnapshotDiff.mk snapA snapB).added cwd0 =
        (SnapshotDiff.mk snapB snapA).removed cwd0 ∧
      (SnapshotDiff.mk snapA snapB).removed cwd0 =
        (SnapshotDiff.mk snapB snapA).added cwd0 :=
  claim_C4 cwd0 snapA snapB

/-- C5: for walk-built snapshots a and b whose path mappings are equal,
the diff a - b has added, removed and modified all empty, and since equal
mappings store equal modification timestamps, touched is empty too. -/
theorem claim_C5 (cwd : Str) (a b : Snapshot)
    (h : diffOk cwd (SnapshotDiff.mk a b) = true) (heq : a.paths = b.paths) :
    (SnapshotDiff.mk a b).added cwd = [] ∧
      (SnapshotDiff.mk a b).removed cwd = [] ∧
      (SnapshotDiff.mk a b).modified cwd = Except.ok [] ∧
      (SnapshotDiff.mk a b).touched cwd = Except.ok [] := by
  obtain ⟨h1, h2, h3, h4⟩ := diffOk_parts cwd _ h
  have hkeys : a.paths.map Prod.fst = b.paths.map Prod.fst := by rw [heq]
  have hl : ∀ k ∈ a.keys, a.massageStr cwd k = k ∧ b.massageStr cwd k = k ∧
      k ∈ a.keys := fun k hk => ⟨h1 k hk, h2 k hk, hk⟩
  obtain ⟨lm, hlm, hmemm⟩ := modifiedAux_spec cwd a b a.keys hl
  obtain ⟨lt, hlt, hmemt⟩ := touchedAux_spec cwd a b a.keys hl
  have hmnil : lm = [] := by
    rw [List.eq_nil_iff_forall_not_mem]
    intro k hkm
    obtain ⟨hk, ra, rb, hra, hrb, hne⟩ := (hmemm k).mp hkm
    rw [heq] at hra
    rw [hra] at hrb
    cases hrb
    exact hne rfl
  have htnil : lt = [] := by
    rw [List.eq_nil_iff_forall_not_mem]
    intro k hkt
    obtain ⟨hk, ra, rb, hra, hrb, hne, _⟩ := (hmemt k).mp hkt
    rw [heq] at hra
    rw [hra] at hrb
    cases hrb
    exact hne rfl
  refine ⟨?_, ?_, by rw [← hmnil]; exact hlm, by rw [← htnil]; exact hlt⟩
  · rw [show (SnapshotDiff.mk a b).added cwd =
      a.keys.filter (fun k => !(b.containsStr cwd k)) from rfl]
    rw [List.filter_eq_nil_iff]
    intro k hk
    rw [containsStr_of_fixed cwd b k (h2 k hk)]
    rw [(lookupKey_isSome_iff _ _).mpr (hkeys ▸ hk)]
    simp
  · rw [show (SnapshotDiff.mk a b).removed cwd =
      b.keys.filter (fun k => !(a.containsStr cwd k)) from rfl]
    rw [List.filter_eq_nil_iff]
    intro k hk
    rw [containsStr_of_fixed cwd a k (h3 k hk)]
    rw [(lookupKey_isSome_iff _ _).mpr (hkeys ▸ hk)]
    simp

/-- Witness for C5: two snapshots with equal mappings. -/
theorem claim_C5_witness :
    (SnapshotDiff.mk snapA snapA).added cwd0 = [] ∧
      (SnapshotDiff.mk snapA snapA).removed cwd0 = [] ∧
      (SnapshotDiff.mk snapA snapA).modified cwd0 = Except.ok [] ∧
      (SnapshotDiff.mk snapA snapA).touched cwd0 = Except.ok [] :=
  claim_C5 cwd0 snapA snapA (by decide) rfl

/-- C7: subtracting a non-snapshot value from a snapshot fails
immediately with TypeError; subtracting a snapshot yields a SnapshotDiff
with the left operand as a and the right operand as b. -/
theorem claim_C7 (s : Snapshot) (v : Value) :
    ((∀ t, v ≠ Value.snap t) → s.sub v = Except.error PyError.typeError) ∧
      (∀ t, v = Value.snap t →
        ∃ d, s.sub v = Except.ok d ∧ d.a = s ∧ d.b = t) := by
  constructor
  · intro hv
    cases v with
    | str p => rfl
    | int n => rfl
    | snap t => exact absurd rfl (hv t)
  · intro t ht
    rw [ht]
    exact ⟨SnapshotDiff.mk s t, rfl, rfl, rfl⟩

/-- Witness for C7: subtracting the integer 5 raises TypeError, while
subtracting a snapshot returns the diff of the two operands. -/
theorem claim_C7_witness :
    (snapA.sub (Value.int 5) = Except.error PyError.typeError) ∧
      ∃ d, snapA.sub (Value.snap snapB) = Except.ok d ∧ d.a = snapA ∧
        d.b = snapB :=
  ⟨(claim_C7 snapA (Value.int 5)).1 (fun _t ht => Value.noConfusion ht),
    (claim_C7 snapA (Value.snap snapB)).2 snapB rfl⟩

/-- C8 counterexample: passing the integer 5 to the path-normalization
routine, the membership test or the lookup raises ValueError, which is
not the TypeError the claim asserts. -/
theorem claim_C8_counterexample :
    snapA.massage_path cwd0 (Value.int 5) = Except.error PyError.valueError ∧
      snapA.containsVal cwd0 (Value.int 5) =
        Except.error PyError.valueError ∧
      snapA.getitem cwd0 (Value.int 5) = Except.error PyError.valueError ∧
      PyError.valueError ≠ PyError.typeError :=
  ⟨rfl, rfl, rfl, fun h => PyError.noConfusion h⟩

/-- C8 as amended: for every snapshot and every input value that is not a
string-like path, the membership test, the lookup and the internal
path-normalization routine fail with ValueError, raised immediately at
the call boundary. -/
theorem claim_C8_amended (cwd : Str) (s : Snapshot) (v : Value)
    (h : ∀ p, v ≠ Value.str p) :
    s.massage_path cwd v = Except.error PyError.valueError ∧
      s.containsVal cwd v = Except.error PyError.valueError ∧
      s.getitem cwd v = Except.error PyError.valueError := by
  cases v with
  | str p => exact absurd rfl (h p)
  | int n => exact ⟨rfl, rfl, rfl⟩
  | snap t => exact ⟨rfl, rfl, rfl⟩

/-- Witness for the amended C8 at the integer 7. -/
theorem claim_C8_witness :
    snapB.massage_path cwd0 (Value.int 7) = Except.error PyError.valueError ∧
      snapB.containsVal cwd0 (Value.int 7) =
        Except.error PyError.valueError ∧
      snapB.getitem cwd0 (Value.int 7) = Except.error PyError.valueError :=
  claim_C8_amended cwd0 snapB (Value.int 7) (fun _p hp => Value.noConfusion hp)

/-- C9: lookup returns the stored record exactly when the normalized key
is tracked and raises KeyError exactly when it is not; the membership
test never raises a lookup error and returns true exactly when the
normalized key is tracked. -/
theorem claim_C9 (cwd : Str) (s : Snapshot) (p : Str) :
    (∀ r, lookupKey s.paths (s.massageStr cwd p) = some r →
        s.getitem cwd (Value.str p) = Except.ok r) ∧
      (lookupKey s.paths (s.massageStr cwd p) = none →
        s.getitem cwd (Value.str p) =
          Except.error (PyError.keyError (s.massageStr cwd p))) ∧
      s.containsVal cwd (Value.str p) = Except.ok (s.containsStr cwd p) ∧
      (∀ v k, s.containsVal cwd v ≠ Except.error (PyError.keyError k)) ∧
      (s.containsStr cwd p = true ↔
        ∃ r, lookupKey s.paths (s.massageStr cwd p) = some r) := by
  refine ⟨?_, ?_, rfl, ?_, ?_⟩
  · intro r hr
    simp [Snapshot.getitem, Snapshot.massage_path, except_bind_ok, hr]
  · intro hr
    simp [Snapshot.getitem, Snapshot.massage_path, except_bind_ok, hr]
  · intro v k hv
    cases v with
    | str q =>
      rw [show s.containsVal cwd (Value.str q) =
        Except.ok (s.containsStr cwd q) from rfl] at hv
      cases hv
    | int n =>
      rw [show s.containsVal cwd (Value.int n) =
        Except.error PyError.valueError from rfl] at hv
      cases hv
    | snap t =>
      rw [show s.containsVal cwd (Value.snap t) =
        Except.error PyError.valueError from rfl] at hv
      cases hv
  · rw [Snapshot.containsStr]
    cases hv : lookupKey s.paths (s.massageStr cwd p) with
    | none => simp [hv]
    | some r => simp [hv]

/-- Witness for C9 at a tracked key of a concrete snapshot. -/
theorem claim_C9_witness :
    (∀ r, lookupKey snapA.paths (snapA.massageStr cwd0 (pstr "mod.txt")) =
          some r →
        snapA.getitem cwd0 (Value.str (pstr "mod.txt")) = Except.ok r) ∧
      (lookupKey snapA.paths (snapA.massageStr cwd0 (pstr "mod.txt")) =
          none →
        snapA.getitem cwd0 (Value.str (pstr "mod.txt")) =
          Except.error
            (PyError.keyError (snapA.massageStr cwd0 (pstr "mod.txt")))) ∧
      snapA.containsVal cwd0 (Value.str (pstr "mod.txt")) =
        Except.ok (snapA.containsStr cwd0 (pstr "mod.txt")) ∧
      (∀ v k, snapA.containsVal cwd0 v ≠
        Except.error (PyError.keyError k)) ∧
      (snapA.containsStr cwd0 (pstr "mod.txt") = true ↔
        ∃ r, lookupKey snapA.paths
          (snapA.massageStr cwd0 (pstr "mod.txt")) = some r) :=
  claim_C9 cwd0 snapA (pstr "mod.txt")

/-! ## MD5 streaming lemmas -/

theorem splitBlocks_of_ge (l : List Nat) (h : 64 ≤ l.length) :
    splitBlocks l = (l.take 64 :: (splitBlocks (l.drop 64)).1,
      (splitBlocks (l.drop 64)).2) := by
  rw [splitBlocks]
  simp [h]

theorem splitBlocks_of_lt (l : List Nat) (h : ¬64 ≤ l.length) :
    splitBlocks l = ([], l) := by
  rw [splitBlocks]
  simp [h]

theorem splitBlocks_append (x y : List Nat) :
    splitBlocks (x ++ y) =
      ((splitBlocks x).1 ++ (splitBlocks ((splitBlocks x).2 ++ y)).1,
        (splitBlocks ((splitBlocks x).2 ++ y)).2) := by
  by_cases h : 64 ≤ x.length
  · have hxy : 64 ≤ (x ++ y).length := by
      rw [List.length_append]; omega
    rw [splitBlocks_of_ge (x ++ y) hxy, splitBlocks_of_ge x h,
      List.take_append_of_le_length h, List.drop_append_of_le_length h,
      splitBlocks_append (x.drop 64) y]
    rfl
  · rw [splitBlocks_of_lt x h]
    simp
termination_by x.length
decreasing_by
  simp only [List.length_drop]
  omega

theorem splitBlocks_snd_lt (l : List Nat) : ¬64 ≤ (splitBlocks l).2.length := by
  by_cases h : 64 ≤ l.length
  · rw [splitBlocks_of_ge l h]
    exact splitBlocks_snd_lt (l.drop 64)
  · rw [splitBlocks_of_lt l h]
    exact h
termination_by l.length
decreasing_by
  simp only [List.length_drop]
  omega

theorem md5Update_append (s : MD5S) (x y : List Nat) :
    md5Update (md5Update s x) y = md5Update s (x ++ y) := by
  simp only [md5Update]
  rw [← List.append_assoc, splitBlocks_append (s.buf ++ x) y,
    List.foldl_append, List.length_append, Nat.add_assoc]

theorem md5Update_nil (s : MD5S) (hs : ¬64 ≤ s.buf.length) :
    md5Update s [] = s := by
  cases s with
  | mk core buf len =>
    simp only [md5Update, List.append_nil]
    rw [splitBlocks_of_lt buf hs]
    rfl

theorem foldl_md5Update (chunks : List (List Nat)) (s : MD5S)
    (hs : ¬64 ≤ s.buf.length) :
    chunks.foldl md5Update s = md5Update s chunks.flatten := by
  induction chunks generalizing s with
  | nil => exact (md5Update_nil s hs).symm
  | cons c cs ih =>
    have h2 : ¬64 ≤ (md5Update s c).buf.length := splitBlocks_snd_lt _
    calc (c :: cs).foldl md5Update s = cs.foldl md5Update (md5Update s c) :=
        rfl
      _ = md5Update (md5Update s c) cs.flatten := ih _ h2
      _ = md5Update s (c ++ cs.flatten) := md5Update_append s c cs.flatten
      _ = md5Update s (c :: cs).flatten := rfl

theorem md5Stream_eq_md5Hex (chunks : List (List Nat)) :
    md5Stream chunks = md5Hex chunks.flatten := by
  rw [md5Stream, foldl_md5Update chunks md5New (by simp [md5New])]
  simp only [md5Hexdigest, md5Update, md5New, List.nil_append, Nat.zero_add,
    md5Hex]
  rw [splitBlocks_append chunks.flatten
    (md5Padding chunks.flatten.length), List.foldl_append]

theorem readChunks_flatten (l : List Nat) : (readChunks l).flatten = l := by
  rw [readChunks]
  by_cases h : l = []
  · simp [h]
  · simp only [h, if_false, List.flatten_cons,
      readChunks_flatten (l.drop CHUNK_SIZE_MB)]
    exact List.take_append_drop _ l
termination_by l.length
decreasing_by
  have hpos : 0 < l.length := List.length_pos.mpr h
  simp only [List.length_drop, CHUNK_SIZE_MB]
  omega

/-! ## MD5 digest format lemmas -/

theorem leBytes_length (n w : Nat) : (leBytes n w).length = w := by
  induction w generalizing n with
  | zero => rfl
  | succ w ih => simp [leBytes, ih]

theorem leBytes_lt (n w : Nat) : ∀ m ∈ leBytes n w, m < 256 := by
  induction w generalizing n with
  | zero => intro m hm; cases hm
  | succ w ih =>
    intro m hm
    rcases List.mem_cons.mp hm with h | h
    · rw [h]; exact Nat.mod_lt _ (by omega)
    · exact ih _ m h

theorem digestBytes_length (st : MD5Core) : (digestBytes st).length = 16 := by
  simp [digestBytes, leBytes_length]

theorem digestBytes_lt (st : MD5Core) : ∀ m ∈ digestBytes st, m < 256 := by
  intro m hm
  rw [digestBytes] at hm
  rcases List.mem_append.mp hm with h | h
  · rcases List.mem_append.mp h with h | h
    · rcases List.mem_append.mp h with h | h
      · exact leBytes_lt _ _ m h
      · exact leBytes_lt _ _ m h
    · exact leBytes_lt _ _ m h
  · exact leBytes_lt _ _ m h

theorem hexChar_mem (n : Nat) (h : n < 16) :
    hexChar n ∈ pstr "0123456789abcdef" := by
  interval_cases n <;> decide

theorem flatten_map_byteHex_length (bytes : List Nat) :
    ((bytes.map byteHex).flatten).length = 2 * bytes.length := by
  induction bytes with
  | nil => rfl
  | cons b bs ih =>
    simp only [List.map_cons, List.flatten_cons, List.length_append, ih,
      byteHex, List.length_cons, List.length_nil, List.length_cons]
    omega

theorem mem_flatten_map_byteHex (bytes : List Nat)
    (hb : ∀ m ∈ bytes, m < 256) :
    ∀ c ∈ (bytes.map byteHex).flatten, c ∈ pstr "0123456789abcdef" := by
  intro c hc
  rw [List.mem_flatten] at hc
  obtain ⟨w, hw, hcw⟩ := hc
  rw [List.mem_map] at hw
  obtain ⟨b, hbmem, hbw⟩ := hw
  have hblt := hb b hbmem
  rw [← hbw] at hcw
  rcases List.mem_cons.mp hcw with h | h
  · rw [h]; exact hexChar_mem _ (by omega)
  · rcases List.mem_cons.mp h with h2 | h2
    · rw [h2]; exact hexChar_mem _ (by omega)
    · cases h2

theorem md5Hex_format (msg : List Nat) :
    (md5Hex msg).length = 32 ∧
      ∀ c ∈ md5Hex msg, c ∈ pstr "0123456789abcdef" := by
  rw [md5Hex]
  constructor
  · rw [flatten_map_byteHex_length, digestBytes_length]
  · exact mem_flatten_map_byteHex _ (digestBytes_lt _)

/-- C10: the digest computed by the snapshot's file hasher is the MD5 of
the file's bytes rendered as a 32-character lowercase-hexadecimal string,
and it depends only on the byte sequence: streaming any chunking of the
bytes (in particular the 15 MiB chunks of _hash_file) yields the one-shot
MD5 of the whole sequence. -/
theorem claim_C10 (l : List Nat) (chunks : List (List Nat))
    (hc : chunks.flatten = l) :
    hash_file l = md5Hex l ∧ md5Stream chunks = md5Hex l ∧
      (md5Hex l).length = 32 ∧
      ∀ c ∈ md5Hex l, c ∈ pstr "0123456789abcdef" := by
  refine ⟨?_, ?_, (md5Hex_format l).1, (md5Hex_format l).2⟩
  · rw [hash_file, md5Stream_eq_md5Hex, readChunks_flatten]
  · rw [md5Stream_eq_md5Hex, hc]

/-- Witness for C10: the bytes of the string hi, chunked one byte at a
time. -/
theorem claim_C10_witness :
    hash_file [104, 105] = md5Hex [104, 105] ∧
      md5Stream [[104], [105]] = md5Hex [104, 105] ∧
      (md5Hex [104, 105]).length = 32 ∧
      ∀ c ∈ md5Hex [104, 105], c ∈ pstr "0123456789abcdef" :=
  claim_C10 [104, 105] [[104], [105]] rfl

/-! ## Path algebra: splitting lemmas -/

theorem splitSep_ne_nil (sep : Char) (l : Str) : splitSep sep l ≠ [] := by
  cases l with
  | nil => simp [splitSep]
  | cons c cs =>
    by_cases h : c = sep
    · simp [splitSep, h]
    · simp only [splitSep, h, if_false]
      cases splitSep sep cs <;> simp

theorem splitSep_append_sep (x y : Str) :
    splitSep '/' (x ++ '/' :: y) = splitSep '/' x ++ splitSep '/' y := by
  induction x with
  | nil => simp [splitSep]
  | cons c cs ih =>
    by_cases h : c = '/'
    · subst h
      simp [splitSep, ih]
    · obtain ⟨h0, t0, hsplit⟩ : ∃ h0 t0, splitSep '/' cs = h0 :: t0 := by
        cases hs : splitSep '/' cs with
        | nil => exact absurd hs (splitSep_ne_nil '/' cs)
        | cons a b => exact ⟨a, b, rfl⟩
      simp only [List.cons_append, splitSep, h, if_false]
      rw [show splitSep '/' (cs.append ('/' :: y)) =
        splitSep '/' cs ++ splitSep '/' y from ih, hsplit]
      rfl
theorem splitSep_single (sep : Char) (l : Str) (h : sep ∉ l) :
    splitSep sep l = [l] := by
  induction l with
  | nil => rfl
  | cons c cs ih =>
    have hc : ¬c = sep := fun e => h (by rw [e]; exact List.mem_cons_self sep cs)
    have hcs : sep ∉ cs := fun e => h (List.mem_cons_of_mem c e)
    simp only [splitSep, hc, if_false, ih hcs]

theorem mem_splitSep_not_mem (sep : Char) (l : Str) :
    ∀ c ∈ splitSep sep l, sep ∉ c := by
  induction l with
  | nil =>
    intro c hc
    rw [show splitSep sep [] = [[]] from rfl] at hc
    simp only [List.mem_singleton] at hc
    rw [hc]
    simp
  | cons d ds ih =>
    intro c hc
    by_cases h : d = sep
    · rw [show splitSep sep (d :: ds) = [] :: splitSep sep ds by
        simp [splitSep, h]] at hc
      rcases List.mem_cons.mp hc with h2 | h2
      · rw [h2]; simp
      · exact ih c h2
    · obtain ⟨h0, t0, hsplit⟩ : ∃ h0 t0, splitSep sep ds = h0 :: t0 := by
        cases hs : splitSep sep ds with
        | nil => exact absurd hs (splitSep_ne_nil sep ds)
        | cons a b => exact ⟨a, b, rfl⟩
      rw [show splitSep sep (d :: ds) = (d :: h0) :: t0 by
        simp [splitSep, h, hsplit]] at hc
      rcases List.mem_cons.mp hc with h2 | h2
      · rw [h2]
        intro hm
        rcases List.mem_cons.mp hm with h3 | h3
        · exact h h3.symm
        · exact ih h0 (by rw [hsplit]; exact List.mem_cons_self h0 t0) h3
      · exact ih c (by rw [hsplit]; exact List.mem_cons_of_mem h0 h2)

theorem splitSep_joinSlash :
    ∀ comps : List Str, comps ≠ [] → (∀ c ∈ comps, '/' ∉ c) →
      splitSep '/' (joinSlash comps) = comps
  | [], hne, _ => absurd rfl hne
  | [c], _, hc => splitSep_single '/' c (hc c (List.mem_singleton.mpr rfl))
  | c :: c2 :: rest, _, hc => by
    rw [show joinSlash (c :: c2 :: rest) = c ++ '/' :: joinSlash (c2 :: rest)
        from rfl,
      splitSep_append_sep, splitSep_single '/' c (hc c (by simp)),
      splitSep_joinSlash (c2 :: rest) (by simp)
        (fun d hd => hc d (List.mem_cons_of_mem c hd))]
    rfl

theorem joinSlash_ne_nil (c : Str) (cs : List Str) (hc : c ≠ []) :
    joinSlash (c :: cs) ≠ [] := by
  cases cs with
  | nil => exact hc
  | cons c2 rest => simp [joinSlash]

theorem joinSlash_getLast_ne_slash :
    ∀ comps : List Str, comps ≠ [] →
      (∀ c ∈ comps, c ≠ [] ∧ '/' ∉ c) →
      (joinSlash comps).getLast? ≠ some '/'
  | [], hne, _ => absurd rfl hne
  | [c], _, hc => by
    intro hlast
    exact (hc c (by simp)).2 (List.mem_of_mem_getLast? hlast)
  | c :: c2 :: rest, _, hc => by
    intro hlast
    rw [show joinSlash (c :: c2 :: rest) = c ++ '/' :: joinSlash (c2 :: rest)
        from rfl] at hlast
    rw [List.getLast?_append_of_ne_nil c (by simp)] at hlast
    have hj : joinSlash (c2 :: rest) ≠ [] :=
      joinSlash_ne_nil c2 rest (hc c2 (by simp)).1
    rw [show ('/' :: joinSlash (c2 :: rest)).getLast? =
      (joinSlash (c2 :: rest)).getLast? by
        rw [show '/' :: joinSlash (c2 :: rest) =
          ['/'] ++ joinSlash (c2 :: rest) from rfl]
        exact List.getLast?_append_of_ne_nil ['/'] hj] at hlast
    exact joinSlash_getLast_ne_slash (c2 :: rest) (by simp)
      (fun d hd => hc d (List.mem_cons_of_mem c hd)) hlast

theorem joinSlash_cons_shape (c : Str) (cs : List Str) :
    ∃ r, joinSlash (c :: cs) = c ++ r := by
  cases cs with
  | nil => exact ⟨[], by simp [joinSlash]⟩
  | cons c2 rest => exact ⟨'/' :: joinSlash (c2 :: rest), rfl⟩

/-! ## Path algebra: normpath lemmas -/

theorem normStep_empty (s : Nat) (st : List Str) : normStep s st [] = st := by
  simp [normStep]

theorem normStep_dot (s : Nat) (st : List Str) : normStep s st ['.'] = st := by
  simp [normStep]

theorem normStep_clean (s : Nat) (st : List Str) (c : Str) (h1 : c ≠ [])
    (h2 : c ≠ ['.']) (h3 : c ≠ dotdot) : normStep s st c = st ++ [c] := by
  rw [normStep, if_neg (by simp [h1, h2]), if_pos (Or.inl h3)]

theorem foldl_normStep_clean (s : Nat) (l : List Str)
    (hl : ∀ c ∈ l, c ≠ [] ∧ c ≠ ['.'] ∧ c ≠ dotdot) :
    ∀ st, l.foldl (normStep s) st = st ++ l := by
  induction l with
  | nil => intro st; simp
  | cons c cs ih =>
    intro st
    obtain ⟨h1, h2, h3⟩ := hl c (List.mem_cons_self c cs)
    rw [List.foldl_cons, normStep_clean s st c h1 h2 h3,
      ih (fun d hd => hl d (List.mem_cons_of_mem c hd)) (st ++ [c])]
    simp

theorem normStep_good (s : Nat) (st : List Str) (c : Str) (hs : s ≠ 0)
    (hc : '/' ∉ c)
    (hst : ∀ d ∈ st, d ≠ [] ∧ '/' ∉ d ∧ d ≠ ['.'] ∧ d ≠ dotdot) :
    ∀ d ∈ normStep s st c, d ≠ [] ∧ '/' ∉ d ∧ d ≠ ['.'] ∧ d ≠ dotdot := by
  intro d hd
  rw [normStep] at hd
  by_cases h1 : c = [] ∨ c = ['.']
  · rw [if_pos h1] at hd
    exact hst d hd
  · rw [if_neg h1] at hd
    by_cases h2 : c ≠ dotdot ∨ (s = 0 ∧ st = []) ∨
        (st ≠ [] ∧ st.getLast? = some dotdot)
    · rw [if_pos h2] at hd
      rcases List.mem_append.mp hd with h | h
      · exact hst d h
      · have hdc : d = c := by simpa using h
        push_neg at h1
        rcases h2 with hc2 | hc2 | hc2
        · rw [hdc]; exact ⟨h1.1, hc, h1.2, hc2⟩
        · exact absurd hc2.1 hs
        · exact absurd rfl
            ((hst dotdot (List.mem_of_mem_getLast? hc2.2)).2.2.2)
    · rw [if_neg h2] at hd
      by_cases h3 : st ≠ []
      · rw [if_pos h3] at hd
        exact hst d (List.mem_of_mem_dropLast hd)
      · rw [if_neg h3] at hd
        exact hst d hd

theorem foldl_normStep_good (s : Nat) (hs : s ≠ 0) (l : List Str)
    (hl : ∀ c ∈ l, '/' ∉ c) :
    ∀ st, (∀ d ∈ st, d ≠ [] ∧ '/' ∉ d ∧ d ≠ ['.'] ∧ d ≠ dotdot) →
      ∀ d ∈ l.foldl (normStep s) st,
        d ≠ [] ∧ '/' ∉ d ∧ d ≠ ['.'] ∧ d ≠ dotdot := by
  induction l with
  | nil => intro st hst; exact hst
  | cons c cs ih =>
    intro st hst
    rw [List.foldl_cons]
    exact ih (fun e he => hl e (List.mem_cons_of_mem c he)) _
      (normStep_good s st c hs (hl c (List.mem_cons_self c cs)) hst)

theorem initSlashes_le_two (p : Str) : initSlashes p ≤ 2 := by
  unfold initSlashes
  split <;> omega

theorem isabs_cons_ne (c : Char) (cs : Str) (h : c ≠ '/') :
    isabs (c :: cs) = false := by
  unfold isabs
  split <;> simp_all

theorem initSlashes_pos_of_isabs (p : Str) (h : isabs p = true) :
    1 ≤ initSlashes p := by
  cases p with
  | nil => cases h
  | cons c cs =>
    have hc : c = '/' := by
      by_contra hne
      rw [isabs_cons_ne c cs hne] at h
      cases h
    subst hc
    unfold initSlashes
    split <;> first | omega | simp_all

theorem normpath_eq_of_ne_nil (p : Str) (hp : p ≠ []) :
    normpath p =
      (if List.replicate (initSlashes p) '/' ++
          joinSlash ((splitSep '/' p).foldl (normStep (initSlashes p)) []) = []
        then ['.']
        else List.replicate (initSlashes p) '/' ++
          joinSlash ((splitSep '/' p).foldl (normStep (initSlashes p)) [])) := by
  simp only [normpath]
  rw [if_neg hp]

theorem normpath_shape_abs (p : Str) (h : isabs p = true) :
    ∃ comps, (∀ c ∈ comps, c ≠ [] ∧ '/' ∉ c ∧ c ≠ ['.'] ∧ c ≠ dotdot) ∧
      normpath p = List.replicate (initSlashes p) '/' ++ joinSlash comps := by
  have hp : p ≠ [] := by
    intro he; rw [he] at h; cases h
  have hs1 : 1 ≤ initSlashes p := initSlashes_pos_of_isabs p h
  refine ⟨(splitSep '/' p).foldl (normStep (initSlashes p)) [], ?_, ?_⟩
  · exact foldl_normStep_good (initSlashes p) (by omega) _
      (mem_splitSep_not_mem '/' p) [] (by simp)
  · have hout : List.replicate (initSlashes p) '/' ++
        joinSlash ((splitSep '/' p).foldl (normStep (initSlashes p)) []) ≠
          [] := by
      intro he
      rcases List.append_eq_nil.mp he with ⟨h1, _⟩
      have : initSlashes p = 0 := by simpa using h1
      omega
    rw [normpath_eq_of_ne_nil p hp, if_neg hout]

theorem initSlashes_one (ch : Char) (rest : Str) (hc : ch ≠ '/') :
    initSlashes ('/' :: ch :: rest) = 1 := by
  unfold initSlashes
  split <;> simp_all

theorem initSlashes_two (ch : Char) (rest : Str) (hc : ch ≠ '/') :
    initSlashes ('/' :: '/' :: ch :: rest) = 2 := by
  unfold initSlashes
  split
  · simp_all
  · rfl
  · rename_i hno heq
    injection heq with h1 h2
    exact absurd h2.symm (hno _)
  · rename_i hno
    exact absurd rfl (hno ('/' :: ch :: rest))

theorem initSlashes_replicate_append (s : Nat) (w : Str) (hs1 : 1 ≤ s)
    (hs2 : s ≤ 2) (hw : ∀ t, w ≠ '/' :: t) :
    initSlashes (List.replicate s '/' ++ w) = s := by
  interval_cases s
  · cases w with
    | nil => rfl
    | cons c t =>
      have hc : c ≠ '/' := fun e => hw t (by rw [e])
      simpa using initSlashes_one c t hc
  · cases w with
    | nil => rfl
    | cons c t =>
      have hc : c ≠ '/' := fun e => hw t (by rw [e])
      simpa using initSlashes_two c t hc

theorem joinSlash_not_slash_head (comps : List Str)
    (hgood : ∀ c ∈ comps, c ≠ [] ∧ '/' ∉ c) :
    ∀ t, joinSlash comps ≠ '/' :: t := by
  intro t he
  cases comps with
  | nil => cases he
  | cons c cs =>
    obtain ⟨r, hr⟩ := joinSlash_cons_shape c cs
    obtain ⟨hc1, hc2⟩ := hgood c (List.mem_cons_self c cs)
    cases c with
    | nil => exact hc1 rfl
    | cons ch ct =>
      rw [hr] at he
      have hch : ch = '/' := by
        have := congrArg (fun l => List.head? l) he
        simpa using this
      subst hch
      exact hc2 (List.mem_cons_self '/' ct)

theorem foldl_normStep_replicate_empty (s n : Nat) :
    ∀ st : List Str, (List.replicate n ([] : Str)).foldl (normStep s) st = st := by
  induction n with
  | zero => intro st; rfl
  | succ n ih =>
    intro st
    rw [List.replicate_succ, List.foldl_cons, normStep_empty]
    exact ih st

theorem splitSep_normpath_shape (s : Nat) (comps : List Str) (hs1 : 1 ≤ s)
    (hs2 : s ≤ 2) (hcomps : comps ≠ [])
    (hgood : ∀ c ∈ comps, c ≠ [] ∧ '/' ∉ c) :
    splitSep '/' (List.replicate s '/' ++ joinSlash comps) =
      List.replicate s [] ++ comps := by
  have hjs : splitSep '/' (joinSlash comps) = comps :=
    splitSep_joinSlash comps hcomps (fun c hc => (hgood c hc).2)
  interval_cases s
  · rw [show List.replicate 1 '/' ++ joinSlash comps =
      '/' :: joinSlash comps by simp [List.replicate]]
    rw [show splitSep '/' ('/' :: joinSlash comps) =
      [] :: splitSep '/' (joinSlash comps) by simp [splitSep]]
    rw [hjs]
    simp [List.replicate]
  · rw [show List.replicate 2 '/' ++ joinSlash comps =
      '/' :: '/' :: joinSlash comps by simp [List.replicate]]
    rw [show splitSep '/' ('/' :: '/' :: joinSlash comps) =
      [] :: [] :: splitSep '/' (joinSlash comps) by simp [splitSep]]
    rw [hjs]
    simp [List.replicate]

theorem normpath_idem_abs (p : Str) (h : isabs p = true) :
    normpath (normpath p) = normpath p := by
  obtain ⟨comps, hgood, hshape⟩ := normpath_shape_abs p h
  have hs1 : 1 ≤ initSlashes p := initSlashes_pos_of_isabs p h
  have hs2 : initSlashes p ≤ 2 := initSlashes_le_two p
  cases comps with
  | nil =>
    rw [hshape]
    have hcase : initSlashes p = 1 ∨ initSlashes p = 2 := by omega
    rcases hcase with h1 | h1 <;> rw [h1] <;> decide
  | cons c cs =>
    have hgood2 : ∀ d ∈ c :: cs, d ≠ [] ∧ '/' ∉ d :=
      fun d hd => ⟨(hgood d hd).1, (hgood d hd).2.1⟩
    have hinit : initSlashes (normpath p) = initSlashes p := by
      rw [hshape]
      exact initSlashes_replicate_append _ _ hs1 hs2
        (joinSlash_not_slash_head _ hgood2)
    have hnp_ne : normpath p ≠ [] := by
      rw [hshape]
      intro he
      rcases List.append_eq_nil.mp he with ⟨h1, _⟩
      have : initSlashes p = 0 := by simpa using h1
      omega
    have hsplit : splitSep '/' (normpath p) =
        List.replicate (initSlashes p) [] ++ (c :: cs) := by
      rw [hshape]
      exact splitSep_normpath_shape _ _ hs1 hs2 (by simp) hgood2
    have hfold : (splitSep '/' (normpath p)).foldl
        (normStep (initSlashes (normpath p))) [] = c :: cs := by
      rw [hsplit, hinit, List.foldl_append, foldl_normStep_replicate_empty]
      rw [foldl_normStep_clean _ _ (fun d hd =>
        ⟨(hgood d hd).1, (hgood d hd).2.2.1, (hgood d hd).2.2.2⟩) []]
      simp
    rw [normpath_eq_of_ne_nil (normpath p) hnp_ne, hfold, hinit]
    rw [if_neg (by rw [← hshape]; exact hnp_ne)]
    exact hshape.symm

theorem isabs_append (x y : Str) (h : isabs x = true) :
    isabs (x ++ y) = true := by
  cases x with
  | nil => cases h
  | cons c cs =>
    have hc : c = '/' := by
      by_contra hne
      rw [isabs_cons_ne c cs hne] at h
      cases h
    subst hc
    rfl

theorem isabs_normpath (p : Str) (h : isabs p = true) :
    isabs (normpath p) = true := by
  obtain ⟨comps, _, hshape⟩ := normpath_shape_abs p h
  have hs1 : 1 ≤ initSlashes p := initSlashes_pos_of_isabs p h
  obtain ⟨n, hn⟩ : ∃ n, initSlashes p = n + 1 :=
    ⟨initSlashes p - 1, by omega⟩
  rw [hshape, hn, List.replicate_succ]
  rfl

theorem isabs_join_left (a b : Str) (ha : isabs a = true) :
    isabs (join a b) = true := by
  rw [join]
  by_cases hb : isabs b = true
  · rw [if_pos hb]; exact hb
  · rw [if_neg hb]
    by_cases he : a = [] ∨ a.getLast? = some '/'
    · rw [if_pos he]; exact isabs_append a b ha
    · rw [if_neg he]; exact isabs_append a ('/' :: b) ha

theorem abspath_isabs (cwd p : Str) (hc : isabs cwd = true) :
    isabs (abspath cwd p) = true := by
  rw [abspath]
  by_cases hp : isabs p = true
  · rw [if_pos hp]; exact isabs_normpath p hp
  · rw [if_neg hp]
    exact isabs_normpath _ (isabs_join_left cwd p hc)

theorem abspath_idem (cwd x : Str) (hc : isabs cwd = true) :
    abspath cwd (abspath cwd x) = abspath cwd x := by
  have habs : isabs (abspath cwd x) = true := abspath_isabs cwd x hc
  obtain ⟨z, hz, hzabs⟩ : ∃ z, abspath cwd x = normpath z ∧ isabs z = true := by
    rw [abspath]
    by_cases hx : isabs x = true
    · rw [if_pos hx]; exact ⟨x, rfl, hx⟩
    · rw [if_neg hx]
      exact ⟨join cwd x, rfl, isabs_join_left cwd x hc⟩
  rw [show abspath cwd (abspath cwd x) = normpath (abspath cwd x) from by
    rw [abspath, if_pos habs]]
  rw [hz]
  exact normpath_idem_abs z hzabs

theorem relpath_absorb (cwd x start : Str) (hc : isabs cwd = true) :
    relpath cwd (abspath cwd x) start = relpath cwd x start := by
  simp only [relpath]
  rw [abspath_idem cwd x hc]

theorem massageStr_eq_specMassage (cwd : Str) (s : Snapshot) (q : Str)
    (hc : isabs cwd = true) :
    s.massageStr cwd q = specMassage cwd s.root q := by
  rw [Snapshot.massageStr, specMassage, path_as_key,
    relpath_absorb cwd _ s.root hc]

theorem root_shape (root : Str) (hroot : isabs root = true)
    (hnorm : normpath root = root) (h1 : root ≠ pstr "/")
    (h2 : root ≠ pstr "//") :
    ∃ c cs, (∀ d ∈ c :: cs, d ≠ [] ∧ '/' ∉ d) ∧
      root = List.replicate (initSlashes root) '/' ++ joinSlash (c :: cs) ∧
      1 ≤ initSlashes root ∧ initSlashes root ≤ 2 := by
  obtain ⟨comps, hgood, hshape⟩ := normpath_shape_abs root hroot
  rw [hnorm] at hshape
  have hs1 := initSlashes_pos_of_isabs root hroot
  have hs2 := initSlashes_le_two root
  cases comps with
  | nil =>
    exfalso
    rw [show joinSlash [] = [] from rfl, List.append_nil] at hshape
    have hcase : initSlashes root = 1 ∨ initSlashes root = 2 := by omega
    rcases hcase with hh | hh
    · rw [hh] at hshape
      exact h1 (by rw [hshape]; decide)
    · rw [hh] at hshape
      exact h2 (by rw [hshape]; decide)
  | cons c cs =>
    exact ⟨c, cs, fun d hd => ⟨(hgood d hd).1, (hgood d hd).2.1⟩, hshape,
      hs1, hs2⟩

theorem joinSlash_append_not_slash_head (comps : List Str) (w : Str)
    (hgood : ∀ c ∈ comps, c ≠ [] ∧ '/' ∉ c) (hne : comps ≠ []) :
    ∀ t, joinSlash comps ++ w ≠ '/' :: t := by
  intro t he
  cases comps with
  | nil => exact hne rfl
  | cons c cs =>
    obtain ⟨r, hr⟩ := joinSlash_cons_shape c cs
    obtain ⟨hc1, hc2⟩ := hgood c (List.mem_cons_self c cs)
    cases c with
    | nil => exact hc1 rfl
    | cons ch ct =>
      rw [hr] at he
      have hch : ch = '/' := by
        have := congrArg List.head? he
        simpa using this
      subst hch
      exact hc2 (List.mem_cons_self '/' ct)

theorem root_ne_nil (root : Str) (hroot : isabs root = true) : root ≠ [] := by
  intro he
  rw [he] at hroot
  cases hroot

theorem root_no_trailing_slash (root : Str) (hroot : isabs root = true)
    (hnorm : normpath root = root) (h1 : root ≠ pstr "/")
    (h2 : root ≠ pstr "//") : root.getLast? ≠ some '/' := by
  obtain ⟨c, cs, hgood, hshape, hs1, hs2⟩ := root_shape root hroot hnorm h1 h2
  rw [hshape,
    List.getLast?_append_of_ne_nil _
      (joinSlash_ne_nil c cs (hgood c (List.mem_cons_self c cs)).1)]
  exact joinSlash_getLast_ne_slash (c :: cs) (by simp) hgood

theorem join_root_rel (root z : Str) (hne : root ≠ [])
    (hlast : root.getLast? ≠ some '/') (hz : isabs z = false) :
    join root z = root ++ '/' :: z := by
  rw [join, if_neg (by rw [hz]; exact fun h => Bool.noConfusion h),
    if_neg (fun h => h.elim hne hlast)]

theorem root_initSlashes_append (root : Str) (hroot : isabs root = true)
    (hnorm : normpath root = root) (h1 : root ≠ pstr "/")
    (h2 : root ≠ pstr "//") (w : Str) :
    initSlashes (root ++ w) = initSlashes root := by
  obtain ⟨c, cs, hgood, hshape, hs1, hs2⟩ := root_shape root hroot hnorm h1 h2
  calc initSlashes (root ++ w)
      = initSlashes (List.replicate (initSlashes root) '/' ++
          (joinSlash (c :: cs) ++ w)) := by
        conv_lhs => rw [hshape]
        rw [List.append_assoc]
    _ = initSlashes root :=
        initSlashes_replicate_append _ _ hs1 hs2
          (joinSlash_append_not_slash_head (c :: cs) w hgood (by simp))

theorem abspath_join_dotslash (cwd root p : Str) (hroot : isabs root = true)
    (hnorm : normpath root = root) (h1 : root ≠ pstr "/")
    (h2 : root ≠ pstr "//") (hp : isabs p = false) :
    abspath cwd (join root ('.' :: '/' :: p)) =
      abspath cwd (join root p) := by
  have hne : root ≠ [] := root_ne_nil root hroot
  have hlast : root.getLast? ≠ some '/' :=
    root_no_trailing_slash root hroot hnorm h1 h2
  have hj1 : join root ('.' :: '/' :: p) = root ++ '/' :: '.' :: '/' :: p :=
    join_root_rel root _ hne hlast rfl
  have hj2 : join root p = root ++ '/' :: p :=
    join_root_rel root p hne hlast hp
  rw [hj1, hj2]
  have habs1 : isabs (root ++ '/' :: '.' :: '/' :: p) = true :=
    isabs_append root _ hroot
  have habs2 : isabs (root ++ '/' :: p) = true := isabs_append root _ hroot
  rw [abspath, if_pos habs1, abspath, if_pos habs2]
  have hinit : initSlashes (root ++ '/' :: '.' :: '/' :: p) =
      initSlashes (root ++ '/' :: p) := by
    rw [root_initSlashes_append root hroot hnorm h1 h2,
      root_initSlashes_append root hroot hnorm h1 h2]
  have hsplit1 : splitSep '/' (root ++ '/' :: '.' :: '/' :: p) =
      splitSep '/' root ++ ['.'] :: splitSep '/' p := by
    rw [splitSep_append_sep]
    congr 1
  have hsplit2 : splitSep '/' (root ++ '/' :: p) =
      splitSep '/' root ++ splitSep '/' p := splitSep_append_sep root p
  have hne1 : root ++ '/' :: '.' :: '/' :: p ≠ [] := by
    intro he
    rcases List.append_eq_nil.mp he with ⟨_, hcontra⟩
    cases hcontra
  have hne2 : root ++ '/' :: p ≠ [] := by
    intro he
    rcases List.append_eq_nil.mp he with ⟨_, hcontra⟩
    cases hcontra
  rw [normpath_eq_of_ne_nil _ hne1, normpath_eq_of_ne_nil _ hne2, hinit,
    hsplit1, hsplit2, List.foldl_append, List.foldl_append,
    List.foldl_cons, normStep_dot]

theorem massage_parts (cwd root p : Str) (hroot : isabs root = true)
    (hnorm : normpath root = root) (h1 : root ≠ pstr "/")
    (h2 : root ≠ pstr "//") (hp : isabs p = false) (s : Snapshot)
    (hs : s.root = root) :
    s.massageStr cwd ('.' :: '/' :: p) = s.massageStr cwd p ∧
      s.massageStr cwd (join root p) = s.massageStr cwd p := by
  constructor
  · rw [Snapshot.massageStr, Snapshot.massageStr, hs]
    rw [if_neg (fun h => Bool.noConfusion h),
      if_neg (by rw [hp]; exact fun h => Bool.noConfusion h)]
    rw [path_as_key, path_as_key,
      abspath_join_dotslash cwd root p hroot hnorm h1 h2 hp]
  · rw [Snapshot.massageStr, Snapshot.massageStr, hs]
    rw [if_pos (isabs_join_left root p hroot),
      if_neg (by rw [hp]; exact fun h => Bool.noConfusion h)]

/-- C6: the snapshot's path normalization follows exactly the
spec-stated algorithm (join onto the root when relative, relate back to
the root, collapse dot and dotdot segments, replace backslashes), and
consequently the membership tests for a dot-slash-prefixed relative
path, the bare relative path, and the absolute form obtained by joining
the path onto the snapshot root all agree. -/
theorem claim_C6 (cwd root p : Str) (s : Snapshot)
    (hcwd : isabs cwd = true) (hroot : isabs root = true)
    (hnorm : normpath root = root) (h1 : root ≠ pstr "/")
    (h2 : root ≠ pstr "//") (hp : isabs p = false) (hs : s.root = root) :
    (∀ q, s.massageStr cwd q = specMassage cwd root q) ∧
      s.containsVal cwd (Value.str (pstr "./" ++ p)) =
        s.containsVal cwd (Value.str p) ∧
      s.containsVal cwd (Value.str (join root p)) =
        s.containsVal cwd (Value.str p) := by
  have hparts := massage_parts cwd root p hroot hnorm h1 h2 hp s hs
  refine ⟨?_, ?_, ?_⟩
  · intro q
    rw [massageStr_eq_specMassage cwd s q hcwd, hs]
  · rw [show s.containsVal cwd (Value.str (pstr "./" ++ p)) =
      Except.ok ((lookupKey s.paths
        (s.massageStr cwd (pstr "./" ++ p))).isSome) from rfl]
    rw [show s.containsVal cwd (Value.str p) =
      Except.ok ((lookupKey s.paths (s.massageStr cwd p)).isSome) from rfl]
    rw [show pstr "./" ++ p = '.' :: '/' :: p from rfl, hparts.1]
  · rw [show s.containsVal cwd (Value.str (join root p)) =
      Except.ok ((lookupKey s.paths
        (s.massageStr cwd (join root p))).isSome) from rfl]
    rw [show s.containsVal cwd (Value.str p) =
      Except.ok ((lookupKey s.paths (s.massageStr cwd p)).isSome) from rfl]
    rw [hparts.2]

/-- Witness for C6 at a concrete working directory, root, snapshot and
relative path. -/
theorem claim_C6_witness :
    (∀ q, snapA.massageStr cwd0 q = specMassage cwd0 (pstr "/tmp/proj") q) ∧
      snapA.containsVal cwd0 (Value.str (pstr "./" ++ pstr "a/b.txt")) =
        snapA.containsVal cwd0 (Value.str (pstr "a/b.txt")) ∧
      snapA.containsVal cwd0
          (Value.str (join (pstr "/tmp/proj") (pstr "a/b.txt"))) =
        snapA.containsVal cwd0 (Value.str (pstr "a/b.txt")) :=
  claim_C6 cwd0 (pstr "/tmp/proj") (pstr "a/b.txt") snapA (by decide)
    (by decide) (by decide) (by decide) (by decide) (by decide) rfl
